import Mathlib

/-!
Verification of the clausewitz_parser repository (Rust, 2018):
a shallow embedding of src/token.rs (tokenizer), src/clval.rs (value
model, Date, accessors) and src/parser.rs (recursive-descent parser),
with theorems settling the specification claims.

Conventions of the embedding:
* bytes are `Nat` values (the Rust code works on `&[u8]`);
* `Untyped` tokens carry the bytes of the referenced buffer slice;
* Rust `f32` payloads are modelled as the exact decimal rational the
  parsed literal denotes (`Rat`); the classification logic is unchanged;
* out-of-bounds indexing (`self.tokens[self.position]` past the end),
  which aborts the Rust process, is the explicit outcome `panicked`;
* the recursive parser loops take a fuel parameter; `nofuel` marks
  exhaustion and is proved unreachable for sufficient fuel.
-/

namespace Clausewitz

/-- Error kinds from src/error.rs (error_chain): `NoToken`,
`InvalidToken`, `InvalidValue(t)`, plain message errors produced by
`bail!("...")`, and wrapped `ParseIntError`. -/
inductive PErr where
  | noToken
  | invalidToken
  | invalidValue (t : String)
  | msg (s : String)
  | parseIntErr
deriving DecidableEq, Repr

/-- The lexer tokens, src/token.rs lines 26-36. `untyped` holds the
bytes of the referenced buffer slice. -/
inductive LexerToken where
  | equals
  | quote
  | leftCurly
  | rightCurly
  | leftParanthesis
  | rightParanthesis
  | comment
  | comma
  | untyped (b : List Nat)
deriving DecidableEq, Repr

/-- `LexerToken::try_from(&u8)`, src/token.rs lines 72-88: classify a
byte as one of the eight punctuation tokens, or fail (`NoToken`). -/
def tryFrom (chr : Nat) : Option LexerToken :=
  if chr = 61 then some .equals
  else if chr = 34 then some .quote
  else if chr = 123 then some .leftCurly
  else if chr = 125 then some .rightCurly
  else if chr = 40 then some .leftParanthesis
  else if chr = 41 then some .rightParanthesis
  else if chr = 35 then some .comment
  else if chr = 44 then some .comma
  else none

/-- `is_whitespace`, src/token.rs lines 90-98: space, LF, CR, TAB. -/
def is_whitespace (chr : Nat) : Bool :=
  chr = 32 ∨ chr = 10 ∨ chr = 13 ∨ chr = 9

/-- `LexerToken::as_untyped`, src/token.rs lines 39-45. -/
def asUntyped : LexerToken → Except PErr (List Nat)
  | .untyped b => .ok b
  | _ => .error (.msg "not an untyped token")

/-- `LexerToken::is_equals`, src/token.rs lines 47-53. -/
def isEquals : LexerToken → Bool
  | .equals => true
  | _ => false

/-- State of the single pass of `Tokenizer::tokenize`
(src/token.rs lines 112-200): the pending untyped-run start,
the two mode flags, and the tokens emitted so far. -/
structure TkState where
  untypedStart : Option Nat
  inQuote : Bool
  inComment : Bool
  tokens : List LexerToken
deriving Repr

/-- The slice `&buf[s..e]` as a byte list. -/
def extract (buf : List Nat) (s e : Nat) : List Nat :=
  (buf.drop s).take (e - s)

/-- One iteration of the `for (pos, chr)` loop of `Tokenizer::tokenize`,
src/token.rs lines 118-187, translated branch by branch. -/
def tokStep (buf : List Nat) (pos : Nat) (chr : Nat) (st : TkState) : TkState :=
  if st.inComment then
    -- if in a comment, advance until newline
    if chr = 10 then { st with inComment := false } else st
  else
    match tryFrom chr with
    | some t =>
      -- in quote mode every punctuation byte except the quote is skipped
      if st.inQuote ∧ t ≠ .quote then st
      else
        let st1 :=
          if st.inQuote then
            -- closing quote: flush the pending run, or push an empty untyped
            match st.untypedStart with
            | some s =>
              if pos ≠ 0 then
                { st with tokens := st.tokens ++ [LexerToken.untyped (extract buf s pos)],
                          untypedStart := none }
              else
                { st with tokens := st.tokens ++ [LexerToken.untyped []] }
            | none => { st with tokens := st.tokens ++ [LexerToken.untyped []] }
          else
            -- new token: push the pending untyped run, if any
            match st.untypedStart with
            | some s =>
              if pos ≠ 0 then
                { st with tokens := st.tokens ++ [LexerToken.untyped (extract buf s pos)],
                          untypedStart := none }
              else st
            | none => st
        let st2 :=
          if t = .quote then { st1 with inQuote := ¬ st1.inQuote }
          else if t = .comment then { st1 with inComment := true }
          else st1
        { st2 with tokens := st2.tokens ++ [t] }
    | none =>
      -- whitespace separates runs, unless quoted; other bytes start or
      -- continue an untyped run
      if ¬ st.inQuote ∧ is_whitespace chr then
        match st.untypedStart with
        | some s =>
          { st with tokens := st.tokens ++ [LexerToken.untyped (extract buf s pos)],
                    untypedStart := none }
        | none => st
      else
        match st.untypedStart with
        | some _ => st
        | none => { st with untypedStart := some pos }

/-- Fold `tokStep` over the remaining bytes, tracking the position. -/
def tokenizeFrom (buf : List Nat) : Nat → List Nat → TkState → TkState
  | _, [], st => st
  | pos, c :: rest, st => tokenizeFrom buf (pos + 1) rest (tokStep buf pos c st)

/-- `Tokenizer::tokenize`, src/token.rs lines 112-200: scan the buffer,
then flush a still-pending untyped run at end of input. -/
def tokenize (buf : List Nat) : List LexerToken :=
  let st := tokenizeFrom buf 0 buf ⟨none, false, false, []⟩
  match st.untypedStart with
  | some s => st.tokens ++ [LexerToken.untyped (extract buf s buf.length)]
  | none => st.tokens

/-- Bytes of an ASCII string literal (test-input helper). -/
def bs (s : String) : List Nat := s.data.map Char.toNat

/-- ASCII decimal digit test. -/
def isDigitB (c : Nat) : Bool := decide (48 ≤ c ∧ c ≤ 57)

/-- Numeric value of a list of ASCII digit bytes. -/
def digitsVal (b : List Nat) : Nat := b.foldl (fun a c => a * 10 + (c - 48)) 0

/-- `i32::from_str` on a byte slice (`buf_to_i32`, src/parser.rs lines
384-389): optional sign, one or more ASCII digits, value within the
signed 32-bit range; `none` mirrors `ParseIntError`. -/
def parseI32core (sgn : Int) (digits : List Nat) : Option Int :=
  if digits ≠ [] ∧ digits.all isDigitB then
    let v : Int := sgn * (digitsVal digits : Int)
    if -(2 ^ 31) ≤ v ∧ v ≤ 2 ^ 31 - 1 then some v else none
  else none

def parseI32 (b : List Nat) : Option Int :=
  match b with
  | 43 :: rest => parseI32core 1 rest
  | 45 :: rest => parseI32core (-1) rest
  | _ => parseI32core 1 b

/-- Split a byte list at every `.` (byte 46); `n` dots give `n + 1`
groups, used to decide the anchored date and float regexes, whose
groups cannot themselves contain a dot. -/
def splitDots : List Nat → List (List Nat)
  | [] => [[]]
  | c :: rest =>
    match splitDots rest with
    | [] => [[]]
    | g :: gs => if c = 46 then [] :: g :: gs else (c :: g) :: gs

/-- `Date`, src/clval.rs lines 41-54: `year: i32`, `month: u8`,
`day: u8` (the regex keeps month and day below 100, so `Nat` fields
with the parser-established bounds model the `u8` values exactly). -/
structure Date where
  year : Int
  month : Nat
  day : Nat
deriving DecidableEq, Repr

/-- `Ord::cmp` on the primitive `i32` field values. -/
def cmpInt (a b : Int) : Ordering :=
  if a < b then .lt else if a = b then .eq else .gt

/-- `Ord::cmp` on the primitive `u8` field values. -/
def cmpNat (a b : Nat) : Ordering :=
  if a < b then .lt else if a = b then .eq else .gt

/-- The derived `Ord` of `Date` (field order year, month, day), as
`#[derive(Ord)]` generates it: lexicographic chaining of the field
comparisons. -/
def Date.cmp (a b : Date) : Ordering :=
  (cmpInt a.year b.year).then ((cmpNat a.month b.month).then (cmpNat a.day b.day))

/-- `Date::from_str`, src/clval.rs lines 56-70: match
`^(\d+)\.(\d{1,2})\.(\d{1,2})$` (decided through `splitDots`: exactly
three dot-separated all-digit groups of the required widths), then
parse year as `i32` (can overflow: `ParseIntError`) and month/day as
`u8` (at most two digits, never fails). -/
def dateFromStr (b : List Nat) : Except PErr Date :=
  match splitDots b with
  | [p1, p2, p3] =>
    if p1 ≠ [] ∧ p1.all isDigitB ∧
       (p2.length = 1 ∨ p2.length = 2) ∧ p2.all isDigitB ∧
       (p3.length = 1 ∨ p3.length = 2) ∧ p3.all isDigitB then
      if digitsVal p1 ≤ 2147483647 then
        .ok ⟨(digitsVal p1 : Int), digitsVal p2, digitsVal p3⟩
      else .error .parseIntErr
    else .error (.msg "not a date")
  | _ => .error (.msg "not a date")

/-- `ClKey`, src/clval.rs lines 78-85; text payloads are kept as the
raw bytes the Rust code reinterprets with `from_utf8_unchecked`. -/
inductive ClKey where
  | integer (i : Int)
  | string (s : List Nat)
  | date (d : Date)
  | identifier (s : List Nat)
deriving DecidableEq, Repr

/-- `ClVal`, src/clval.rs lines 132-143. `float` holds the exact
decimal rational denoted by the literal (the Rust `f32` is that value
rounded to the nearest single-precision float); `dict` is the
`HashMap` as an association list with insert-overwrite semantics. -/
inductive ClVal where
  | integer (i : Int)
  | float (q : ℚ)
  | string (s : List Nat)
  | date (d : Date)
  | bool (b : Bool)
  | identifier (s : List Nat)
  | list (l : List ClVal)
  | dict (d : List (ClKey × ClVal))

/-- `impl Into<ClVal> for ClKey`, src/clval.rs lines 121-130. -/
def ClKey.intoVal : ClKey → ClVal
  | .integer i => .integer i
  | .string s => .string s
  | .date d => .date d
  | .identifier s => .identifier s

/-- `HashMap::insert` viewed on an association list: overwrite the
binding of an existing key, otherwise add the new binding. -/
def insertKV : List (ClKey × ClVal) → ClKey → ClVal → List (ClKey × ClVal)
  | [], k, v => [(k, v)]
  | (k1, v1) :: rest, k, v =>
    if k1 = k then (k, v) :: rest else (k1, v1) :: insertKV rest k v

/-- Exact rational value of the float literal reassembled by
`Parser::parse_float` from sign, integer part and fraction part. -/
def floatOfParts (sgn : Int) (intPart fracPart : List Nat) : ℚ :=
  mkRat (sgn * ((digitsVal intPart * 10 ^ fracPart.length + digitsVal fracPart : Nat) : Int))
    (10 ^ fracPart.length)

/-- Body of `Parser::parse_float` after the sign, src/parser.rs lines
348-360: the regex `^([+-]?)(\d*)\.(\d+)$` demands an all-digit
(possibly empty) integer part, one dot, and a nonempty all-digit
fraction part; the reassembled literal always parses as `f32`. -/
def parseFloatCore (sgn : Int) (rest : List Nat) : Option ℚ :=
  match splitDots rest with
  | [bd, ad] =>
    if bd.all isDigitB ∧ ad ≠ [] ∧ ad.all isDigitB then
      some (floatOfParts sgn bd ad)
    else none
  | _ => none

def parseFloatQ (b : List Nat) : Option ℚ :=
  match b with
  | 43 :: rest => parseFloatCore 1 rest
  | 45 :: rest => parseFloatCore (-1) rest
  | _ => parseFloatCore 1 b

/-- `Parser::parse_bool`, src/parser.rs lines 362-368: exactly the
bytes `yes` and `no`. -/
def parseBool (b : List Nat) : Option Bool :=
  if b = bs "yes" then some true
  else if b = bs "no" then some false
  else none

/-- `ClKey` accessors, src/clval.rs lines 87-119 (note: `as_date`
really bails with `InvalidValue("identifier")` in the source). -/
def ClKey.as_i32 : ClKey → Except PErr Int
  | .integer i => .ok i
  | _ => .error (.invalidValue "integer")

def ClKey.as_string : ClKey → Except PErr (List Nat)
  | .string s => .ok s
  | _ => .error (.invalidValue "string")

def ClKey.as_identifier : ClKey → Except PErr (List Nat)
  | .identifier s => .ok s
  | _ => .error (.invalidValue "identifier")

def ClKey.as_date : ClKey → Except PErr Date
  | .date d => .ok d
  | _ => .error (.invalidValue "identifier")

/-- `ClVal` accessors, src/clval.rs lines 145-209 (same remark on
`as_date`). -/
def ClVal.as_i32 : ClVal → Except PErr Int
  | .integer i => .ok i
  | _ => .error (.invalidValue "integer")

def ClVal.as_f32 : ClVal → Except PErr ℚ
  | .float q => .ok q
  | _ => .error (.invalidValue "float")

def ClVal.as_string : ClVal → Except PErr (List Nat)
  | .string s => .ok s
  | _ => .error (.invalidValue "string")

def ClVal.as_bool : ClVal → Except PErr Bool
  | .bool b => .ok b
  | _ => .error (.invalidValue "bool")

def ClVal.as_list : ClVal → Except PErr (List ClVal)
  | .list l => .ok l
  | _ => .error (.invalidValue "list")

def ClVal.as_dict : ClVal → Except PErr (List (ClKey × ClVal))
  | .dict d => .ok d
  | _ => .error (.invalidValue "dict")

def ClVal.as_identifier : ClVal → Except PErr (List Nat)
  | .identifier s => .ok s
  | _ => .error (.invalidValue "identifier")

def ClVal.as_date : ClVal → Except PErr Date
  | .date d => .ok d
  | _ => .error (.invalidValue "identifier")

/-- Cursor state of `Parser`, src/parser.rs lines 48-52. -/
structure PState where
  tokens : List LexerToken
  currentIndent : Nat
  position : Nat
deriving Repr

/-- Outcome of a parser routine: `Ok(a)` with the updated cursor,
`Err(e)` with the cursor where the error was raised, an out-of-bounds
token index (which aborts the Rust process), or fuel exhaustion of the
embedding. -/
inductive POut (α : Type) where
  | ok (a : α) (s : PState)
  | err (e : PErr) (s : PState)
  | panicked
  | nofuel

/-- `Parser::parse_key`, src/parser.rs lines 92-124: advance past the
token, then either read a quoted string (skipping two more tokens),
run the key cascade Integer → Date → Identifier on an untyped token,
or fail with `InvalidToken`. -/
def parseKey (s : PState) : POut ClKey :=
  match s.tokens[s.position]? with
  | none => .panicked
  | some token =>
    let s1 : PState := { s with position := s.position + 1 }
    match token with
    | .quote =>
      match s1.tokens[s1.position]? with
      | none => .panicked
      | some t2 =>
        match asUntyped t2 with
        | .error e => .err e s1
        | .ok b => .ok (ClKey.string b) { s1 with position := s1.position + 2 }
    | .untyped b =>
      match parseI32 b with
      | some i => .ok (.integer i) s1
      | none =>
        match dateFromStr b with
        | .ok d => .ok (.date d) s1
        | .error _ => .ok (.identifier b) s1
    | _ => .err .invalidToken s1

mutual

/-- `Parser::parse_value`, src/parser.rs lines 126-174: advance past
the token, then quoted string, the value cascade Integer → Float →
Bool → Date → Identifier, a collection on `LeftCurly` (incrementing
the indent), or `InvalidToken`. -/
def parseValue : Nat → PState → POut ClVal
  | 0, _ => .nofuel
  | fuel + 1, s =>
    match s.tokens[s.position]? with
    | none => .panicked
    | some token =>
      let s1 : PState := { s with position := s.position + 1 }
      match token with
      | .quote =>
        match s1.tokens[s1.position]? with
        | none => .panicked
        | some t2 =>
          match asUntyped t2 with
          | .error e => .err e s1
          | .ok b => .ok (ClVal.string b) { s1 with position := s1.position + 2 }
      | .untyped b =>
        match parseI32 b with
        | some i => .ok (.integer i) s1
        | none =>
          match parseFloatQ b with
          | some q => .ok (.float q) s1
          | none =>
            match parseBool b with
            | some v => .ok (.bool v) s1
            | none =>
              match dateFromStr b with
              | .ok d => .ok (.date d) s1
              | .error _ => .ok (.identifier b) s1
      | .leftCurly =>
        parseCollection fuel { s1 with currentIndent := s1.currentIndent + 1 }
      | _ => .err .invalidToken s1

/-- `Parser::parse_collection`, src/parser.rs lines 287-321: an
immediate `RightCurly` gives the empty list; otherwise parse one value
speculatively and peek the next token: `Equals` means the collection
is a dict, so rewind to the recorded position, else it is a list
seeded with the value just parsed. -/
def parseCollection : Nat → PState → POut ClVal
  | 0, _ => .nofuel
  | fuel + 1, s =>
    let oldPos := s.position
    match s.tokens[s.position]? with
    | none => .panicked
    | some tok0 =>
      if tok0 = .rightCurly then
        .ok (.list []) { s with position := s.position + 1 }
      else
        match parseValue fuel s with
        | .ok v s1 =>
          match s1.tokens[s1.position]? with
          | none => .panicked
          | some tok1 =>
            if isEquals tok1 then
              parseDictLoop fuel [] { s1 with position := oldPos }
            else
              parseListLoop fuel [v] s1
        | .err e s1 => .err e s1
        | .panicked => .panicked
        | .nofuel => .nofuel

/-- The `while` loop of `Parser::parse_dict`, src/parser.rs lines
176-238, with the accumulated dict made explicit: parse a key
(recovering from `InvalidToken` by continuing at the already-advanced
cursor), optionally consume `Equals`, parse a value (same recovery),
insert the pair, then stop at end of input or `RightCurly`, and skip
an optional `Comma`. -/
def parseDictLoop : Nat → List (ClKey × ClVal) → PState → POut ClVal
  | 0, _, _ => .nofuel
  | fuel + 1, dict, s =>
    if s.position < s.tokens.length then
      match parseKey s with
      | .panicked => .panicked
      | .nofuel => .nofuel
      | .err e s1 =>
        if e = .invalidToken then parseDictLoop fuel dict s1 else .err e s1
      | .ok key s1 =>
        match s1.tokens[s1.position]? with
        | none => .panicked
        | some tok =>
          let s2 : PState :=
            if isEquals tok then { s1 with position := s1.position + 1 } else s1
          match parseValue fuel s2 with
          | .panicked => .panicked
          | .nofuel => .nofuel
          | .err e s3 =>
            if e = .invalidToken then parseDictLoop fuel dict s3 else .err e s3
          | .ok value s3 =>
            let dict1 := insertKV dict key value
            if s3.position ≥ s3.tokens.length then
              .ok (.dict dict1) s3
            else
              match s3.tokens[s3.position]? with
              | some .rightCurly =>
                .ok (.dict dict1)
                  { s3 with position := s3.position + 1,
                            currentIndent := s3.currentIndent - 1 }
              | some .comma => parseDictLoop fuel dict1 { s3 with position := s3.position + 1 }
              | _ => parseDictLoop fuel dict1 s3
    else
      .ok (.dict dict) s

/-- The `while` loop of `Parser::parse_list`, src/parser.rs lines
240-285, with the accumulated list explicit (the optional seed value
becomes the initial accumulator): parse a value (recovering from
`InvalidToken`), push it, then stop at end of input or `RightCurly`,
and skip an optional `Comma`. -/
def parseListLoop : Nat → List ClVal → PState → POut ClVal
  | 0, _, _ => .nofuel
  | fuel + 1, list, s =>
    if s.position < s.tokens.length then
      match parseValue fuel s with
      | .panicked => .panicked
      | .nofuel => .nofuel
      | .err e s1 =>
        if e = .invalidToken then parseListLoop fuel list s1 else .err e s1
      | .ok v s1 =>
        let list1 := list ++ [v]
        if s1.position ≥ s1.tokens.length then
          .ok (.list list1) s1
        else
          match s1.tokens[s1.position]? with
          | some .rightCurly =>
            .ok (.list list1)
              { s1 with position := s1.position + 1,
                        currentIndent := s1.currentIndent - 1 }
          | some .comma => parseListLoop fuel list1 { s1 with position := s1.position + 1 }
          | _ => parseListLoop fuel list1 s1
    else
      .ok (.list list) s

end

/-- The `while` loop of `Parser::parse`, src/parser.rs lines 67-90:
parse a key (errors are fatal here), optionally consume `Equals`,
parse a value (fatal as well), insert, repeat until the tokens are
exhausted; the result is always a `Dict` on success. -/
def parseLoop : Nat → List (ClKey × ClVal) → PState → POut ClVal
  | 0, _, _ => .nofuel
  | fuel + 1, dict, s =>
    if s.position < s.tokens.length then
      match parseKey s with
      | .panicked => .panicked
      | .nofuel => .nofuel
      | .err e s1 => .err e s1
      | .ok key s1 =>
        match s1.tokens[s1.position]? with
        | none => .panicked
        | some tok =>
          let s2 : PState :=
            if isEquals tok then { s1 with position := s1.position + 1 } else s1
          match parseValue fuel s2 with
          | .panicked => .panicked
          | .nofuel => .nofuel
          | .err e s3 => .err e s3
          | .ok value s3 => parseLoop fuel (insertKV dict key value) s3
    else
      .ok (.dict dict) s

/-- `Parser::parse` on a fresh parser (`Parser::new(tokens)`). -/
def parse (fuel : Nat) (tokens : List LexerToken) : POut ClVal :=
  parseLoop fuel [] ⟨tokens, 0, 0⟩

/-- The crate-level `parse` convenience entry point, src/lib.rs lines
56-60: tokenize, then parse. -/
def parseBuffer (fuel : Nat) (buf : List Nat) : POut ClVal :=
  parse fuel (tokenize buf)

/-! Shared lemmas. -/

/-- Every successful result of the top-level loop is a `Dict`. -/
theorem parseLoop_ok_dict (fuel : Nat) : ∀ dict s v s1,
    parseLoop fuel dict s = POut.ok v s1 → ∃ d, v = ClVal.dict d := by
  induction fuel with
  | zero => intro dict s v s1 h; exact POut.noConfusion h
  | succ n ih =>
    intro dict s v s1 h
    rw [parseLoop] at h
    repeat' split at h
    all_goals
      first
        | exact POut.noConfusion h
        | (injection h with h1 h2; exact ⟨dict, h1.symm⟩)
        | (dsimp only at h
           split at h <;>
             first
               | exact POut.noConfusion h
               | exact ih _ _ _ _ h)

/-! Claim C1. The claim asserts that `Parser::parse` always returns a
`Value::Dict`, even on malformed token sequences such as the tokens of
the buffer `foo`.  In fact on `[Untyped("foo")]` the top-level loop
parses the key, then evaluates `&self.tokens[self.position]` with
`position = 1 = tokens.len()`: an out-of-bounds index that aborts the
process, so the parser does not return at all on that input.  What
does hold: the empty token sequence yields the empty `Dict`, and every
successful return value of `parse` is a `Dict`. -/

/-- C1 counterexample: on the token sequence of the buffer `foo`
(a single `Untyped` token) the parser hits an out-of-bounds token
index instead of returning a `Dict`. -/
theorem c1_counterexample :
    parse 10 [LexerToken.untyped (bs "foo")] = POut.panicked := rfl

/-- C1 (amended): the empty token sequence parses to the empty dict,
and whenever `parse` returns `Ok`, the value is a `Value::Dict`;
malformed input can instead abort on an out-of-bounds token index or
return an error. -/
theorem c1_ok_result_is_dict :
    parse 1 [] = POut.ok (ClVal.dict []) ⟨[], 0, 0⟩ ∧
    ∀ (fuel : Nat) (toks : List LexerToken) (v : ClVal) (s1 : PState),
      parse fuel toks = POut.ok v s1 → ∃ d, v = ClVal.dict d :=
  ⟨rfl, fun fuel toks v s1 h => parseLoop_ok_dict fuel [] ⟨toks, 0, 0⟩ v s1 h⟩

/-- C1 witness: the universally quantified part of
`c1_ok_result_is_dict` applied at the empty token sequence. -/
theorem c1_witness :
    parse 1 [] = POut.ok (ClVal.dict []) ⟨[], 0, 0⟩ ∧
    ∃ d, ClVal.dict [] = ClVal.dict d :=
  ⟨rfl, c1_ok_result_is_dict.2 1 [] (ClVal.dict []) ⟨[], 0, 0⟩ rfl⟩

/-! Claim C2: collection disambiguation. -/

/-- C2: a collection opened by `LeftCurly` is the empty list when the
next token is `RightCurly`; otherwise one value is parsed
speculatively and the token after it decides: `Equals` rewinds the
cursor to the recorded position and parses a dict, anything else
parses a list seeded with the first value.  Moreover, the three
pipeline examples: `key={1 2, 3}` gives a list, `key={a=1, b=2}` a
dict, and `key={}` the empty list. -/
theorem c2_collection_disambiguation :
    (∀ (fuel : Nat) (s : PState),
      s.tokens[s.position]? = some LexerToken.rightCurly →
      parseCollection (fuel + 1) s =
        POut.ok (ClVal.list []) { s with position := s.position + 1 }) ∧
    (∀ (fuel : Nat) (s : PState) (t0 : LexerToken) (v : ClVal) (s1 : PState)
       (t1 : LexerToken),
      s.tokens[s.position]? = some t0 → t0 ≠ LexerToken.rightCurly →
      parseValue fuel s = POut.ok v s1 →
      s1.tokens[s1.position]? = some t1 →
      parseCollection (fuel + 1) s =
        (if isEquals t1 then parseDictLoop fuel [] { s1 with position := s.position }
         else parseListLoop fuel [v] s1)) ∧
    parseBuffer 100 (bs "key={1 2, 3}") =
      POut.ok (ClVal.dict [(ClKey.identifier (bs "key"),
          ClVal.list [ClVal.integer 1, ClVal.integer 2, ClVal.integer 3])])
        ⟨tokenize (bs "key={1 2, 3}"), 0, 8⟩ ∧
    parseBuffer 100 (bs "key={a=1, b=2}") =
      POut.ok (ClVal.dict [(ClKey.identifier (bs "key"),
          ClVal.dict [(ClKey.identifier (bs "a"), ClVal.integer 1),
            (ClKey.identifier (bs "b"), ClVal.integer 2)])])
        ⟨tokenize (bs "key={a=1, b=2}"), 0, 11⟩ ∧
    parseBuffer 100 (bs "key={}") =
      POut.ok (ClVal.dict [(ClKey.identifier (bs "key"), ClVal.list [])])
        ⟨tokenize (bs "key={}"), 1, 4⟩ := by
  refine ⟨?_, ?_, ?_, ?_, ?_⟩
  · intro fuel s h
    simp [parseCollection, h]
  · intro fuel s t0 v s1 t1 h0 hne hv h1
    simp [parseCollection, h0, hne, hv, h1]
  all_goals
    simp [parseBuffer, tokenize, tokenizeFrom, tokStep, tryFrom, is_whitespace,
      extract, bs, parse, parseLoop, parseKey, parseValue, parseCollection,
      parseDictLoop, parseListLoop, insertKV, parseI32, parseI32core, isDigitB,
      digitsVal, parseFloatQ, parseFloatCore, parseBool, dateFromStr, splitDots,
      asUntyped, isEquals, floatOfParts]

/-- C2 witness: the two quantified parts of
`c2_collection_disambiguation` at concrete states: an immediate
`RightCurly` gives the empty list, and a first value followed by a
non-`Equals` token continues as a list seeded with that value. -/
theorem c2_witness :
    ((⟨[LexerToken.rightCurly], 0, 0⟩ : PState).tokens.get? 0 =
        some LexerToken.rightCurly ∧
      parseCollection 5 ⟨[LexerToken.rightCurly], 0, 0⟩ =
        POut.ok (ClVal.list []) ⟨[LexerToken.rightCurly], 0, 1⟩) ∧
    (parseValue 5 ⟨[LexerToken.untyped (bs "1"), LexerToken.untyped (bs "2")], 0, 0⟩ =
        POut.ok (ClVal.integer 1)
          ⟨[LexerToken.untyped (bs "1"), LexerToken.untyped (bs "2")], 0, 1⟩ ∧
      parseCollection 6 ⟨[LexerToken.untyped (bs "1"), LexerToken.untyped (bs "2")], 0, 0⟩ =
        parseListLoop 5 [ClVal.integer 1]
          ⟨[LexerToken.untyped (bs "1"), LexerToken.untyped (bs "2")], 0, 1⟩) :=
  ⟨⟨rfl, c2_collection_disambiguation.1 4 ⟨[LexerToken.rightCurly], 0, 0⟩ rfl⟩,
   ⟨rfl, c2_collection_disambiguation.2.1 5
      ⟨[LexerToken.untyped (bs "1"), LexerToken.untyped (bs "2")], 0, 0⟩
      (LexerToken.untyped (bs "1")) (ClVal.integer 1)
      ⟨[LexerToken.untyped (bs "1"), LexerToken.untyped (bs "2")], 0, 1⟩
      (LexerToken.untyped (bs "2")) rfl (by decide) rfl rfl⟩⟩

/-! Claim C3: the value classification cascade. -/

/-- C3: the value cascade classifies `42` as Integer, `42.5` as
Float 42.5, `yes`/`no` as Bool, `2018.5.16` as Date, and any untyped
slice rejected by all four earlier interpretations as an Identifier
of the verbatim bytes. -/
theorem c3_value_cascade :
    parseValue 10 ⟨[LexerToken.untyped (bs "42")], 0, 0⟩ =
      POut.ok (ClVal.integer 42) ⟨[LexerToken.untyped (bs "42")], 0, 1⟩ ∧
    (parseValue 10 ⟨[LexerToken.untyped (bs "42.5")], 0, 0⟩ =
      POut.ok (ClVal.float (mkRat 425 10)) ⟨[LexerToken.untyped (bs "42.5")], 0, 1⟩ ∧
      mkRat 425 10 = (42.5 : ℚ)) ∧
    parseValue 10 ⟨[LexerToken.untyped (bs "yes")], 0, 0⟩ =
      POut.ok (ClVal.bool true) ⟨[LexerToken.untyped (bs "yes")], 0, 1⟩ ∧
    parseValue 10 ⟨[LexerToken.untyped (bs "no")], 0, 0⟩ =
      POut.ok (ClVal.bool false) ⟨[LexerToken.untyped (bs "no")], 0, 1⟩ ∧
    parseValue 10 ⟨[LexerToken.untyped (bs "2018.5.16")], 0, 0⟩ =
      POut.ok (ClVal.date ⟨2018, 5, 16⟩) ⟨[LexerToken.untyped (bs "2018.5.16")], 0, 1⟩ ∧
    ∀ (fuel : Nat) (s : PState) (b : List Nat) (e : PErr),
      s.tokens[s.position]? = some (LexerToken.untyped b) →
      parseI32 b = none → parseFloatQ b = none → parseBool b = none →
      dateFromStr b = Except.error e →
      parseValue (fuel + 1) s =
        POut.ok (ClVal.identifier b) { s with position := s.position + 1 } := by
  refine ⟨rfl, ⟨rfl, by norm_num⟩, rfl, rfl, rfl, ?_⟩
  intro fuel s b e h0 h1 h2 h3 h4
  simp [parseValue, h0, h1, h2, h3, h4]

/-- C3 witness: the identifier fallback of `c3_value_cascade` at the
bytes of `bar`, which all four earlier interpretations reject. -/
theorem c3_witness :
    parseI32 (bs "bar") = none ∧ parseFloatQ (bs "bar") = none ∧
    parseBool (bs "bar") = none ∧
    dateFromStr (bs "bar") = Except.error (PErr.msg "not a date") ∧
    parseValue 1 ⟨[LexerToken.untyped (bs "bar")], 0, 0⟩ =
      POut.ok (ClVal.identifier (bs "bar")) ⟨[LexerToken.untyped (bs "bar")], 0, 1⟩ :=
  ⟨rfl, rfl, rfl, rfl,
    c3_value_cascade.2.2.2.2.2 0 ⟨[LexerToken.untyped (bs "bar")], 0, 0⟩
      (bs "bar") (PErr.msg "not a date") rfl rfl rfl rfl rfl⟩

/-! Claim C6. The claim asserts every typed accessor fails on a
mismatched variant with `InvalidValue` naming the requested kind,
e.g. `as_date` with `InvalidValue("date")`.  The source of both
`ClVal::as_date` (src/clval.rs line 206) and `ClKey::as_date`
(line 116) instead bails with `InvalidValue("identifier")` — a
copy-paste slip: every other accessor names its own kind, and the
spec states the requested kind is named.  The repository's own tests
sidestep it (test_as_date and test_key_as_date assert on
`as_identifier`'s error, another copy of the same slip). -/

/-- C6: evaluation at the failing input: `as_date` on a non-`Date`
value or key yields `InvalidValue("identifier")`, not
`InvalidValue("date")`; all other accessors do name the requested
kind, and matching variants return the payload. -/
theorem c6_as_date_wrong_kind :
    ClVal.as_date (ClVal.integer 111) = Except.error (PErr.invalidValue "identifier") ∧
    ClKey.as_date (ClKey.integer 111) = Except.error (PErr.invalidValue "identifier") ∧
    PErr.invalidValue "identifier" ≠ PErr.invalidValue "date" ∧
    ClVal.as_date (ClVal.date ⟨2018, 5, 16⟩) = Except.ok (⟨2018, 5, 16⟩ : Date) ∧
    ClVal.as_i32 (ClVal.bool true) = Except.error (PErr.invalidValue "integer") ∧
    ClVal.as_f32 (ClVal.bool true) = Except.error (PErr.invalidValue "float") ∧
    ClVal.as_string (ClVal.bool true) = Except.error (PErr.invalidValue "string") ∧
    ClVal.as_bool (ClVal.integer 1) = Except.error (PErr.invalidValue "bool") ∧
    ClVal.as_list (ClVal.bool true) = Except.error (PErr.invalidValue "list") ∧
    ClVal.as_dict (ClVal.bool true) = Except.error (PErr.invalidValue "dict") ∧
    ClVal.as_identifier (ClVal.bool true) = Except.error (PErr.invalidValue "identifier") ∧
    ClVal.as_i32 (ClVal.integer 42) = Except.ok 42 ∧
    ClKey.as_i32 (ClKey.integer 42) = Except.ok 42 ∧
    ClKey.as_string (ClKey.string (bs "test")) = Except.ok (bs "test") ∧
    ClKey.as_identifier (ClKey.integer 111) = Except.error (PErr.invalidValue "identifier") :=
  ⟨rfl, rfl, by decide, rfl, rfl, rfl, rfl, rfl, rfl, rfl, rfl, rfl, rfl, rfl, rfl⟩

/-! Claim C8. The tokenizer part of the claim holds: the comment
bytes after `#` are discarded up to and including the newline, which
clears comment mode without being tokenized, and the emitted tokens
are exactly those of `foo=bar`, a `Comment` marker token, and
`baz=qux`.  The pipeline part is false: the `Comment` token itself is
pushed to the token stream (src/token.rs line 167), the parser has no
case for it, so top-level `parse_key` fails with `InvalidToken`
(fatal at top level) and the whole parse errors instead of producing
the two entries. -/

/-- C8 counterexample: the full pipeline on
`foo=bar #comment\nbaz=qux` fails with `InvalidToken` at the
`Comment` token (token index 3; the error is raised after the cursor
advanced to 4) instead of producing the two entries. -/
theorem c8_counterexample :
    parseBuffer 100 (bs "foo=bar #comment\nbaz=qux") =
      POut.err PErr.invalidToken ⟨tokenize (bs "foo=bar #comment\nbaz=qux"), 0, 4⟩ := rfl

/-- C8 (amended): the tokenizer yields exactly the tokens of
`foo=bar`, a `Comment` marker, and `baz=qux`; no token carries the
comment text or the newline. -/
theorem c8_comment_tokens :
    tokenize (bs "foo=bar #comment\nbaz=qux") =
      [LexerToken.untyped (bs "foo"), LexerToken.equals, LexerToken.untyped (bs "bar"),
       LexerToken.comment, LexerToken.untyped (bs "baz"), LexerToken.equals,
       LexerToken.untyped (bs "qux")] := rfl

/-! Claim C9, counterexample part.  The date regex
`^(\d+)\.(\d{1,2})\.(\d{1,2})$` also matches `0` and `00` for month
and day, so `Date::from_str` accepts month and day 0; the claimed
lower bound 1 is wrong. -/

/-- C9 counterexample: `1.0.0` parses successfully with month 0,
outside the claimed range `1..99`. -/
theorem c9_counterexample :
    dateFromStr (bs "1.0.0") = Except.ok (⟨1, 0, 0⟩ : Date) ∧
    ¬ (1 ≤ (⟨1, 0, 0⟩ : Date).month) :=
  ⟨rfl, by decide⟩

/-! Claim C7: error propagation policy. -/

/-- C7: at the top level a key error is fatal; inside a dict or list
body an `InvalidToken` from a key or value parse is recovered by
resuming the loop at the already-advanced cursor, while any other
error kind propagates out; end to end, `k={x== ,y=2}` drops only the
malformed `x` entry and still collects `y=2`, a non-`InvalidToken`
error (a quote followed by a non-untyped token) inside a collection
aborts the whole parse, and a bad top-level token aborts the parse. -/
theorem c7_propagation_policy :
    (∀ (fuel : Nat) (dict : List (ClKey × ClVal)) (s : PState) (e : PErr) (s1 : PState),
      s.position < s.tokens.length → parseKey s = POut.err e s1 →
      parseLoop (fuel + 1) dict s = POut.err e s1) ∧
    (∀ (fuel : Nat) (dict : List (ClKey × ClVal)) (s s1 : PState),
      s.position < s.tokens.length → parseKey s = POut.err PErr.invalidToken s1 →
      parseDictLoop (fuel + 1) dict s = parseDictLoop fuel dict s1) ∧
    (∀ (fuel : Nat) (dict : List (ClKey × ClVal)) (s : PState) (e : PErr) (s1 : PState),
      s.position < s.tokens.length → parseKey s = POut.err e s1 →
      e ≠ PErr.invalidToken →
      parseDictLoop (fuel + 1) dict s = POut.err e s1) ∧
    (∀ (fuel : Nat) (acc : List ClVal) (s s1 : PState),
      s.position < s.tokens.length → parseValue fuel s = POut.err PErr.invalidToken s1 →
      parseListLoop (fuel + 1) acc s = parseListLoop fuel acc s1) ∧
    (∀ (fuel : Nat) (acc : List ClVal) (s : PState) (e : PErr) (s1 : PState),
      s.position < s.tokens.length → parseValue fuel s = POut.err e s1 →
      e ≠ PErr.invalidToken →
      parseListLoop (fuel + 1) acc s = POut.err e s1) ∧
    parseBuffer 100 (bs "k={x== ,y=2}") =
      POut.ok (ClVal.dict [(ClKey.identifier (bs "k"),
          ClVal.dict [(ClKey.identifier (bs "y"), ClVal.integer 2)])])
        ⟨tokenize (bs "k={x== ,y=2}"), 0, 11⟩ ∧
    parse 100
      [LexerToken.untyped (bs "k"), LexerToken.equals, LexerToken.leftCurly,
       LexerToken.untyped (bs "a"), LexerToken.equals, LexerToken.quote,
       LexerToken.equals, LexerToken.quote, LexerToken.rightCurly] =
      POut.err (PErr.msg "not an untyped token")
        ⟨[LexerToken.untyped (bs "k"), LexerToken.equals, LexerToken.leftCurly,
          LexerToken.untyped (bs "a"), LexerToken.equals, LexerToken.quote,
          LexerToken.equals, LexerToken.quote, LexerToken.rightCurly], 1, 6⟩ ∧
    parse 100 [LexerToken.equals] =
      POut.err PErr.invalidToken ⟨[LexerToken.equals], 0, 1⟩ := by
  refine ⟨?_, ?_, ?_, ?_, ?_, ?_, ?_, ?_⟩
  · intro fuel dict s e s1 hlt hk
    simp [parseLoop, hlt, hk]
  · intro fuel dict s s1 hlt hk
    simp [parseDictLoop, hlt, hk]
  · intro fuel dict s e s1 hlt hk hne
    simp [parseDictLoop, hlt, hk, hne]
  · intro fuel acc s s1 hlt hv
    simp [parseListLoop, hlt, hv]
  · intro fuel acc s e s1 hlt hv hne
    simp [parseListLoop, hlt, hv, hne]
  all_goals
    simp [parseBuffer, tokenize, tokenizeFrom, tokStep, tryFrom, is_whitespace,
      extract, bs, parse, parseLoop, parseKey, parseValue, parseCollection,
      parseDictLoop, parseListLoop, insertKV, parseI32, parseI32core, isDigitB,
      digitsVal, parseFloatQ, parseFloatCore, parseBool, dateFromStr, splitDots,
      asUntyped, isEquals, floatOfParts]

/-- C7 witness: the top-level-fatal part and the dict-recovery part of
`c7_propagation_policy` at concrete states. -/
theorem c7_witness :
    ((⟨[LexerToken.equals], 0, 0⟩ : PState).position <
        (⟨[LexerToken.equals], 0, 0⟩ : PState).tokens.length ∧
      parseKey ⟨[LexerToken.equals], 0, 0⟩ =
        POut.err PErr.invalidToken ⟨[LexerToken.equals], 0, 1⟩ ∧
      parseLoop 1 [] ⟨[LexerToken.equals], 0, 0⟩ =
        POut.err PErr.invalidToken ⟨[LexerToken.equals], 0, 1⟩) ∧
    (parseKey ⟨[LexerToken.comma], 0, 0⟩ =
        POut.err PErr.invalidToken ⟨[LexerToken.comma], 0, 1⟩ ∧
      parseDictLoop 3 [] ⟨[LexerToken.comma], 0, 0⟩ =
        parseDictLoop 2 [] ⟨[LexerToken.comma], 0, 1⟩) :=
  ⟨⟨by decide, rfl,
      c7_propagation_policy.1 0 [] ⟨[LexerToken.equals], 0, 0⟩ PErr.invalidToken
        ⟨[LexerToken.equals], 0, 1⟩ (by decide) rfl⟩,
   ⟨rfl,
      c7_propagation_policy.2.1 2 [] ⟨[LexerToken.comma], 0, 0⟩
        ⟨[LexerToken.comma], 0, 1⟩ (by decide) rfl⟩⟩

/-! Claim C9, remaining parts: shape of the accepted inputs and the
derived ordering. -/

/-- `splitDots` never returns the empty group list. -/
theorem splitDots_ne_nil (l : List Nat) : splitDots l ≠ [] := by
  cases l with
  | nil => simp [splitDots]
  | cons c rest =>
    rw [splitDots]
    cases hsr : splitDots rest with
    | nil => simp
    | cons g gs => by_cases hc : c = 46 <;> simp [hc]

/-- A dot-free list is a single group. -/
theorem splitDots_no_dot (l : List Nat) (h : 46 ∉ l) : splitDots l = [l] := by
  induction l with
  | nil => rfl
  | cons c rest ih =>
    have hc : c ≠ 46 := fun hh => h (hh ▸ List.mem_cons_self c rest)
    have hr : (46 : Nat) ∉ rest := fun hm => h (List.mem_cons_of_mem _ hm)
    simp [splitDots, ih hr, hc]

/-- Splitting after a dot-free prefix peels off that prefix. -/
theorem splitDots_append (p rest : List Nat) (hp : 46 ∉ p) :
    splitDots (p ++ 46 :: rest) = p :: splitDots rest := by
  induction p with
  | nil =>
    simp only [List.nil_append]
    rw [splitDots]
    cases hsr : splitDots rest with
    | nil => exact absurd hsr (splitDots_ne_nil rest)
    | cons g gs => simp
  | cons c q ih =>
    have hc : c ≠ 46 := fun hh => hp (hh ▸ List.mem_cons_self c q)
    have hq : (46 : Nat) ∉ q := fun hm => hp (List.mem_cons_of_mem _ hm)
    simp [splitDots, ih hq, hc]

/-- Joining groups with dots, the inverse of `splitDots`. -/
def joinD : List (List Nat) → List Nat
  | [] => []
  | g :: gs =>
    match gs with
    | [] => g
    | _ :: _ => g ++ 46 :: joinD gs

theorem joinD_splitDots (b : List Nat) : joinD (splitDots b) = b := by
  induction b with
  | nil => rfl
  | cons c rest ih =>
    rw [splitDots]
    cases hsr : splitDots rest with
    | nil => exact absurd hsr (splitDots_ne_nil rest)
    | cons g gs =>
      rw [hsr] at ih
      by_cases hc : c = 46 <;> cases gs <;> simp_all [joinD]

/-- Exactly three groups reassemble to the two-dot decomposition. -/
theorem splitDots_eq_three (b p1 p2 p3 : List Nat)
    (h : splitDots b = [p1, p2, p3]) : b = p1 ++ (46 :: (p2 ++ (46 :: p3))) := by
  have hj := joinD_splitDots b
  rw [h] at hj
  simpa [joinD] using hj.symm

/-- An all-digit group contains no dot. -/
theorem all_digit_no_dot (l : List Nat) (h : l.all isDigitB = true) :
    (46 : Nat) ∉ l := by
  intro hm
  have := List.all_eq_true.mp h _ hm
  simp [isDigitB] at this

/-- The value of one or two digit bytes is at most 99. -/
theorem digitsVal_le99 (l : List Nat) (h2 : l.length = 1 ∨ l.length = 2)
    (hd : l.all isDigitB = true) : digitsVal l ≤ 99 := by
  cases l with
  | nil => simp at h2
  | cons a t =>
    cases t with
    | nil =>
      have ha := List.all_eq_true.mp hd a (by simp)
      simp [isDigitB] at ha
      simp [digitsVal]
      omega
    | cons b t2 =>
      cases t2 with
      | nil =>
        have ha := List.all_eq_true.mp hd a (by simp)
        have hb := List.all_eq_true.mp hd b (by simp)
        simp [isDigitB] at ha hb
        simp [digitsVal]
        omega
      | cons x t3 => simp at h2

/-- C9 (amended): every date produced by `Date::from_str` has month
and day at most 99 (0 is possible, so the claimed lower bound 1 does
not hold) and a year in `0..=i32::MAX`; the accepted inputs are
exactly the byte strings of the shape
`^(\d+)\.(\d{1,2})\.(\d{1,2})$` whose year digits fit an `i32`; and
the derived equality and comparison on `Date` are field-wise
lexicographic on (year, month, day). -/
theorem c9_date_properties :
    (∀ (b : List Nat) (d : Date), dateFromStr b = Except.ok d →
      d.month ≤ 99 ∧ d.day ≤ 99 ∧ 0 ≤ d.year ∧ d.year ≤ 2147483647) ∧
    (∀ b : List Nat, (∃ d, dateFromStr b = Except.ok d) ↔
      ∃ p1 p2 p3 : List Nat,
        b = p1 ++ (46 :: (p2 ++ (46 :: p3))) ∧
        p1 ≠ [] ∧ p1.all isDigitB = true ∧
        (p2.length = 1 ∨ p2.length = 2) ∧ p2.all isDigitB = true ∧
        (p3.length = 1 ∨ p3.length = 2) ∧ p3.all isDigitB = true ∧
        digitsVal p1 ≤ 2147483647) ∧
    (∀ a c : Date, Date.cmp a c = Ordering.eq ↔ a = c) ∧
    (∀ a c : Date, Date.cmp a c = Ordering.lt ↔
      (a.year < c.year ∨ (a.year = c.year ∧
        (a.month < c.month ∨ (a.month = c.month ∧ a.day < c.day))))) := by
  refine ⟨?_, ?_, ?_, ?_⟩
  · intro b d h
    unfold dateFromStr at h
    split at h
    case _ g1 g2 g3 hsp =>
      split at h
      case isTrue hcond =>
        split at h
        case isTrue hyear =>
          injection h with h
          obtain ⟨_, _, hl2, ha2, hl3, ha3⟩ := hcond
          subst h
          refine ⟨digitsVal_le99 g2 hl2 ha2, digitsVal_le99 g3 hl3 ha3, ?_, ?_⟩
          · exact Int.ofNat_nonneg _
          · show (digitsVal g1 : Int) ≤ 2147483647
            exact_mod_cast hyear
        case isFalse => exact Except.noConfusion h
      case isFalse => exact Except.noConfusion h
    case _ => exact Except.noConfusion h
  · intro b
    constructor
    · rintro ⟨d, h⟩
      unfold dateFromStr at h
      split at h
      case _ g1 g2 g3 hsp =>
        split at h
        case isTrue hcond =>
          split at h
          case isTrue hyear =>
            obtain ⟨h1, ha1, hl2, ha2, hl3, ha3⟩ := hcond
            exact ⟨g1, g2, g3, splitDots_eq_three b g1 g2 g3 hsp,
              h1, ha1, hl2, ha2, hl3, ha3, hyear⟩
          case isFalse => exact Except.noConfusion h
        case isFalse => exact Except.noConfusion h
      case _ => exact Except.noConfusion h
    · rintro ⟨p1, p2, p3, hb, h1, ha1, hl2, ha2, hl3, ha3, hyear⟩
      have hsp : splitDots b = [p1, p2, p3] := by
        rw [hb, splitDots_append p1 _ (all_digit_no_dot p1 ha1),
          splitDots_append p2 _ (all_digit_no_dot p2 ha2),
          splitDots_no_dot p3 (all_digit_no_dot p3 ha3)]
      refine ⟨⟨(digitsVal p1 : Int), digitsVal p2, digitsVal p3⟩, ?_⟩
      unfold dateFromStr
      rw [hsp]
      simp [h1, ha1, hl2, ha2, hl3, ha3, hyear]
  · intro a c
    obtain ⟨ay, am, ad⟩ := a
    obtain ⟨cy, cm, cd⟩ := c
    simp only [Date.cmp, cmpInt, cmpNat, Date.mk.injEq]
    split_ifs <;> simp_all [Ordering.then] <;> omega
  · intro a c
    obtain ⟨ay, am, ad⟩ := a
    obtain ⟨cy, cm, cd⟩ := c
    simp only [Date.cmp, cmpInt, cmpNat]
    split_ifs <;> simp_all [Ordering.then]

/-- C9 witness: the bound and shape parts of `c9_date_properties` at
the date `2018.5.16`. -/
theorem c9_witness :
    dateFromStr (bs "2018.5.16") = Except.ok (⟨2018, 5, 16⟩ : Date) ∧
    ((⟨2018, 5, 16⟩ : Date).month ≤ 99 ∧ (⟨2018, 5, 16⟩ : Date).day ≤ 99 ∧
      0 ≤ (⟨2018, 5, 16⟩ : Date).year ∧ (⟨2018, 5, 16⟩ : Date).year ≤ 2147483647) :=
  ⟨rfl, c9_date_properties.1 (bs "2018.5.16") ⟨2018, 5, 16⟩ rfl⟩

/-! Claim C5.  The claim says the `Untyped` token inside a quoted
region carries exactly the bytes between the delimiters, explicitly
including content that begins with a punctuation byte.  The code
disagrees: inside a quote, punctuation bytes are consumed by
`continue` without ever setting `untyped_start`
(src/token.rs lines 145-147 and 181-184), so the emitted slice starts
only at the first non-punctuation byte of the quoted region; leading
punctuation bytes are silently dropped (`"{a"` tokenizes the content
as `a`).  Punctuation and whitespace after that first content byte
are preserved. -/

/-- Only the byte `"` maps to the `Quote` token. -/
theorem tryFrom_quote (c : Nat) (h : tryFrom c = some LexerToken.quote) :
    c = 34 := by
  unfold tryFrom at h
  split_ifs at h <;> simp_all

/-- Inside a quoted region, punctuation bytes are skipped without
starting an untyped run. -/
theorem tokenizeFrom_quote_punct (buf : List Nat) (p : List Nat) :
    ∀ (rest : List Nat) (pos : Nat) (toks : List LexerToken),
    (∀ c ∈ p, (tryFrom c).isSome = true) → 34 ∉ p →
    tokenizeFrom buf pos (p ++ rest) ⟨none, true, false, toks⟩ =
      tokenizeFrom buf (pos + p.length) rest ⟨none, true, false, toks⟩ := by
  induction p with
  | nil => intro rest pos toks _ _; simp
  | cons c q ih =>
    intro rest pos toks hp h34
    have hc : (tryFrom c).isSome = true := hp c (List.mem_cons_self c q)
    obtain ⟨t, ht⟩ := Option.isSome_iff_exists.mp hc
    have hcq : c ≠ 34 := fun hh => h34 (hh ▸ List.mem_cons_self c q)
    have htq : t ≠ LexerToken.quote := fun hh => hcq (tryFrom_quote c (hh ▸ ht))
    have hstep : tokStep buf pos c ⟨none, true, false, toks⟩ =
        ⟨none, true, false, toks⟩ := by
      simp [tokStep, ht, htq]
    rw [List.cons_append, tokenizeFrom, hstep,
      ih rest (pos + 1) toks (fun x hx => hp x (List.mem_cons_of_mem c hx))
        (fun hx => h34 (List.mem_cons_of_mem c hx))]
    have harith : pos + 1 + q.length = pos + (c :: q).length := by
      simp only [List.length_cons]
      omega
    rw [harith]

/-- Once the untyped run has started inside a quoted region, every
byte up to the closing quote leaves the state unchanged, and the
closing quote flushes the slice from the run start to its position. -/
theorem tokenizeFrom_quote_run (buf : List Nat) (content : List Nat) :
    ∀ (pos s0 : Nat) (toks : List LexerToken),
    34 ∉ content → 0 < pos →
    tokenizeFrom buf pos (content ++ [34]) ⟨some s0, true, false, toks⟩ =
      ⟨none, false, false,
        toks ++ [LexerToken.untyped (extract buf s0 (pos + content.length)),
          LexerToken.quote]⟩ := by
  induction content with
  | nil =>
    intro pos s0 toks _ hpos
    have hpz : pos ≠ 0 := Nat.pos_iff_ne_zero.mp hpos
    simp [tokenizeFrom, tokStep, tryFrom, hpz]
  | cons c r ih =>
    intro pos s0 toks h34 hpos
    have hcq : c ≠ 34 := fun hh => h34 (hh ▸ List.mem_cons_self c r)
    have hr : (34 : Nat) ∉ r := fun hx => h34 (List.mem_cons_of_mem c hx)
    have hstep : tokStep buf pos c ⟨some s0, true, false, toks⟩ =
        ⟨some s0, true, false, toks⟩ := by
      cases ht : tryFrom c with
      | none => simp [tokStep, ht]
      | some t =>
        have htq : t ≠ LexerToken.quote := fun hh => hcq (tryFrom_quote c (hh ▸ ht))
        simp [tokStep, ht, htq]
    rw [List.cons_append, tokenizeFrom, hstep,
      ih (pos + 1) s0 toks hr (Nat.succ_pos pos)]
    have : pos + 1 + r.length = pos + (c :: r).length := by
      simp [List.length_cons]; omega
    rw [this]

/-- The head of a non-nil `dropWhile` fails the predicate. -/
theorem dropWhile_head_false (p : Nat → Bool) (l : List Nat) :
    ∀ (c : Nat) (r : List Nat), l.dropWhile p = c :: r → p c = false := by
  induction l with
  | nil => intro c r h; simp [List.dropWhile] at h
  | cons a t ih =>
    intro c r h
    rw [List.dropWhile_cons] at h
    split at h
    · exact ih c r h
    · next hpa =>
      injection h with h1 h2
      subst h1
      simpa using hpa

/-- Every member of a `takeWhile` satisfies the predicate. -/
theorem mem_takeWhile_pred (p : Nat → Bool) (l : List Nat) :
    ∀ c, c ∈ l.takeWhile p → p c = true := by
  induction l with
  | nil => intro c h; simp [List.takeWhile] at h
  | cons a t ih =>
    intro c h
    rw [List.takeWhile_cons] at h
    split at h
    · next hpa =>
      rcases List.mem_cons.mp h with h1 | h1
      · exact h1 ▸ hpa
      · exact ih c h1
    · simp at h

/-- C5 counterexample: the quoted content `{a` loses its leading
punctuation byte: the tokenizer emits `Untyped(a)`, not the claimed
`Untyped({a)`. -/
theorem c5_counterexample :
    tokenize [34, 123, 97, 34] =
      [LexerToken.quote, LexerToken.untyped [97], LexerToken.quote] ∧
    tokenize [34, 123, 97, 34] ≠
      [LexerToken.quote, LexerToken.untyped [123, 97], LexerToken.quote] :=
  ⟨rfl, by decide⟩

/-- C5 (amended): for a single quoted region whose content has no
quote byte, the emitted `Untyped` token carries the content with its
leading punctuation bytes dropped (everything from the first
non-punctuation byte up to the closing quote, punctuation and
whitespace included; the empty slice when the content is all
punctuation). -/
theorem c5_quoted_slice (content : List Nat) (h34 : 34 ∉ content) :
    tokenize (34 :: (content ++ [34])) =
      [LexerToken.quote,
       LexerToken.untyped (content.dropWhile (fun c => (tryFrom c).isSome)),
       LexerToken.quote] := by
  have htd := List.takeWhile_append_dropWhile (fun c => (tryFrom c).isSome) content
  have hP : ∀ c ∈ content.takeWhile (fun c => (tryFrom c).isSome),
      (tryFrom c).isSome = true :=
    fun c hc => mem_takeWhile_pred (fun c => (tryFrom c).isSome) content c hc
  have h34P : (34 : Nat) ∉ content.takeWhile (fun c => (tryFrom c).isSome) :=
    fun hx => h34 (htd ▸ List.mem_append_left _ hx)
  have h34D : (34 : Nat) ∉ content.dropWhile (fun c => (tryFrom c).isSome) :=
    fun hx => h34 (htd ▸ List.mem_append_right _ hx)
  have h0 : tokenizeFrom (34 :: (content ++ [34])) 0 (34 :: (content ++ [34]))
      ⟨none, false, false, []⟩ =
      tokenizeFrom (34 :: (content ++ [34])) 1 (content ++ [34])
        ⟨none, true, false, [LexerToken.quote]⟩ := rfl
  cases hD : content.dropWhile (fun c => (tryFrom c).isSome) with
  | nil =>
    -- all-punctuation content: the run never starts, the closing
    -- quote pushes an empty untyped token
    have hct : content.takeWhile (fun c => (tryFrom c).isSome) = content := by
      rw [hD, List.append_nil] at htd
      exact htd
    have hPc : ∀ c ∈ content, (tryFrom c).isSome = true := by
      rw [hct] at hP
      exact hP
    have hfinal : tokenizeFrom (34 :: (content ++ [34])) 0 (34 :: (content ++ [34]))
        ⟨none, false, false, []⟩ =
        ⟨none, false, false,
          [LexerToken.quote, LexerToken.untyped [], LexerToken.quote]⟩ := by
      rw [h0, tokenizeFrom_quote_punct _ content [34] 1 [LexerToken.quote] hPc h34]
      rfl
    unfold tokenize
    rw [hfinal]
  | cons c0 r =>
    have hc0 : tryFrom c0 = none := by
      have hh := dropWhile_head_false (fun c => (tryFrom c).isSome) content c0 r hD
      have hh2 : (tryFrom c0).isSome = false := by simpa using hh
      cases ht : tryFrom c0 with
      | none => rfl
      | some t => rw [ht] at hh2; simp at hh2
    have hsplit : content ++ [34] =
        content.takeWhile (fun c => (tryFrom c).isSome) ++ ((c0 :: r) ++ [34]) := by
      conv_lhs => rw [← htd, hD]
      rw [List.append_assoc]
    have h34r : (34 : Nat) ∉ r := by
      rw [hD] at h34D
      exact fun hx => h34D (List.mem_cons_of_mem c0 hx)
    have hstep : tokStep (34 :: (content ++ [34]))
        (1 + (content.takeWhile (fun c => (tryFrom c).isSome)).length) c0
        ⟨none, true, false, [LexerToken.quote]⟩ =
        ⟨some (1 + (content.takeWhile (fun c => (tryFrom c).isSome)).length),
          true, false, [LexerToken.quote]⟩ := by
      simp [tokStep, hc0]
    have hext : extract (34 :: (content ++ [34]))
        (1 + (content.takeWhile (fun c => (tryFrom c).isSome)).length)
        (1 + (content.takeWhile (fun c => (tryFrom c).isSome)).length + 1 + r.length) =
        c0 :: r := by
      unfold extract
      have harith : 1 + (content.takeWhile (fun c => (tryFrom c).isSome)).length =
          (content.takeWhile (fun c => (tryFrom c).isSome)).length + 1 := by omega
      have hdrop : (34 :: (content ++ [34])).drop
          (1 + (content.takeWhile (fun c => (tryFrom c).isSome)).length) =
          (c0 :: r) ++ [34] := by
        rw [harith, List.drop_succ_cons, hsplit, List.drop_left]
      rw [hdrop]
      have harith2 : 1 + (content.takeWhile (fun c => (tryFrom c).isSome)).length + 1 +
          r.length -
          (1 + (content.takeWhile (fun c => (tryFrom c).isSome)).length) =
          (c0 :: r).length := by
        simp only [List.length_cons]
        omega
      rw [harith2]
      exact List.take_left (c0 :: r) [34]
    have hfinal : tokenizeFrom (34 :: (content ++ [34])) 0 (34 :: (content ++ [34]))
        ⟨none, false, false, []⟩ =
        ⟨none, false, false,
          [LexerToken.quote] ++ [LexerToken.untyped (c0 :: r), LexerToken.quote]⟩ := by
      set bb := 34 :: (content ++ [34]) with hbb
      rw [h0, hsplit,
        tokenizeFrom_quote_punct bb _ _ 1 [LexerToken.quote] hP h34P,
        List.cons_append, tokenizeFrom, hstep,
        tokenizeFrom_quote_run bb r _ _ [LexerToken.quote] h34r (by omega), hext]
    unfold tokenize
    rw [hfinal]
    rfl

/-! Claim C4.  Totality of `tokenize` is a theorem of the embedding
(it is a structurally recursive total function).  The claim's second
half — every emitted `Untyped` token contains no whitespace bytes and
does not overlap punctuation — is false for quoted regions, where the
token deliberately carries whitespace and punctuation bytes
(spec §3, and the code path src/token.rs lines 128-147).  For
buffers without a quote byte it holds, which is the amended claim. -/

/-- A byte that is neither whitespace nor punctuation. -/
def goodByte (c : Nat) : Prop := is_whitespace c = false ∧ tryFrom c = none

/-- All untyped tokens of a list carry only good bytes. -/
def goodTokens (toks : List LexerToken) : Prop :=
  ∀ b, LexerToken.untyped b ∈ toks → ∀ x ∈ b, goodByte x

theorem goodTokens_push (toks : List LexerToken) (t : LexerToken)
    (h : goodTokens toks) (ht : ∀ b, t ≠ LexerToken.untyped b) :
    goodTokens (toks ++ [t]) := by
  intro b hb x hx
  rcases List.mem_append.mp hb with hb1 | hb1
  · exact h b hb1 x hx
  · exact absurd (List.mem_singleton.mp hb1).symm (ht b)

theorem goodTokens_push_untyped (toks : List LexerToken) (e : List Nat)
    (h : goodTokens toks) (he : ∀ x ∈ e, goodByte x) :
    goodTokens (toks ++ [LexerToken.untyped e]) := by
  intro b hb x hx
  rcases List.mem_append.mp hb with hb1 | hb1
  · exact h b hb1 x hx
  · have h2 := List.mem_singleton.mp hb1
    injection h2 with h3
    exact he x (h3 ▸ hx)

/-- Membership from a successful index lookup. -/
theorem mem_of_idx (l : List Nat) (n : Nat) (a : Nat) (h : l[n]? = some a) :
    a ∈ l := by
  have h2 : n < l.length := by
    by_contra hh
    rw [List.getElem?_eq_none (by omega)] at h
    exact Option.noConfusion h
  have h3 : l[n] = a := by
    have he := List.getElem?_eq_getElem h2
    rw [he] at h
    exact Option.some.inj h
  exact h3 ▸ List.getElem_mem h2

/-- Extending a slice by the byte at its right end. -/
theorem extract_extend (buf : List Nat) (s pos : Nat) (c : Nat)
    (hle : s ≤ pos) (hget : buf[pos]? = some c) :
    extract buf s (pos + 1) = extract buf s pos ++ [c] := by
  unfold extract
  have h1 : pos + 1 - s = (pos - s) + 1 := by omega
  rw [h1, List.take_succ]
  have h2 : (buf.drop s)[pos - s]? = some c := by
    rw [List.getElem?_drop]
    have h3 : s + (pos - s) = pos := by omega
    rw [h3]
    exact hget
  rw [h2]
  rfl

/-- Only punctuation tokens come out of `try_from`, never `Untyped`. -/
theorem tryFrom_not_untyped (c : Nat) (t : LexerToken) (h : tryFrom c = some t) :
    ∀ b, t ≠ LexerToken.untyped b := by
  intro b
  unfold tryFrom at h
  split_ifs at h
  all_goals
    first
      | exact Option.noConfusion h
      | (injection h with h2; rw [← h2]; simp)

/-- One step of the tokenizer preserves the quote-free invariant:
outside quote mode, the pending run and every flushed untyped token
consist of bytes that are neither whitespace nor punctuation. -/
theorem tkInv_step (buf : List Nat) (pos c : Nat) (st : TkState)
    (h34 : c ≠ 34) (hget : buf[pos]? = some c)
    (h1 : st.inQuote = false)
    (h2 : st.inComment = true → st.untypedStart = none)
    (h3 : ∀ s, st.untypedStart = some s →
      s < pos ∧ ∀ x ∈ extract buf s pos, goodByte x)
    (h4 : goodTokens st.tokens) :
    (tokStep buf pos c st).inQuote = false ∧
    ((tokStep buf pos c st).inComment = true →
      (tokStep buf pos c st).untypedStart = none) ∧
    (∀ s, (tokStep buf pos c st).untypedStart = some s →
      s < pos + 1 ∧ ∀ x ∈ extract buf s (pos + 1), goodByte x) ∧
    goodTokens (tokStep buf pos c st).tokens := by
  obtain ⟨us, iq, ic, toks⟩ := st
  dsimp only at h1 h2 h3 h4
  subst h1
  have hrunext : ∀ s, us = some s → goodByte c →
      ∀ x ∈ extract buf s (pos + 1), goodByte x := by
    intro s hs hgc x hx
    obtain ⟨hlt, hgood⟩ := h3 s hs
    rw [extract_extend buf s pos c (Nat.le_of_lt hlt) hget] at hx
    rcases List.mem_append.mp hx with hx1 | hx1
    · exact hgood x hx1
    · exact (List.mem_singleton.mp hx1) ▸ hgc
  cases ic with
  | true =>
    have hus : us = none := h2 rfl
    subst hus
    by_cases hnl : c = 10
    · have hstep : tokStep buf pos c ⟨none, false, true, toks⟩ =
          ⟨none, false, false, toks⟩ := by
        simp [tokStep, hnl]
      rw [hstep]
      exact ⟨rfl, fun _ => rfl, fun s hs => Option.noConfusion hs, h4⟩
    · have hstep : tokStep buf pos c ⟨none, false, true, toks⟩ =
          ⟨none, false, true, toks⟩ := by
        simp [tokStep, hnl]
      rw [hstep]
      exact ⟨rfl, fun _ => rfl, fun s hs => Option.noConfusion hs, h4⟩
  | false =>
    cases htf : tryFrom c with
    | some t =>
      have htq : t ≠ LexerToken.quote :=
        fun hh => h34 (tryFrom_quote c (hh ▸ htf))
      have htu := tryFrom_not_untyped c t htf
      cases us with
      | none =>
        by_cases hcm : t = LexerToken.comment
        · have hstep : tokStep buf pos c ⟨none, false, false, toks⟩ =
              ⟨none, false, true, toks ++ [t]⟩ := by
            simp [tokStep, htf, htq, hcm]
          rw [hstep]
          exact ⟨rfl, fun _ => rfl, fun s hs => Option.noConfusion hs,
            goodTokens_push toks t h4 htu⟩
        · have hstep : tokStep buf pos c ⟨none, false, false, toks⟩ =
              ⟨none, false, false, toks ++ [t]⟩ := by
            simp [tokStep, htf, htq, hcm]
          rw [hstep]
          exact ⟨rfl, fun _ => rfl, fun s hs => Option.noConfusion hs,
            goodTokens_push toks t h4 htu⟩
      | some s =>
        obtain ⟨hlt, hgood⟩ := h3 s rfl
        have hpz : pos ≠ 0 := by omega
        by_cases hcm : t = LexerToken.comment
        · have hstep : tokStep buf pos c ⟨some s, false, false, toks⟩ =
              ⟨none, false, true,
                (toks ++ [LexerToken.untyped (extract buf s pos)]) ++ [t]⟩ := by
            simp [tokStep, htf, htq, hcm, hpz]
          rw [hstep]
          exact ⟨rfl, fun _ => rfl, fun s2 hs2 => Option.noConfusion hs2,
            goodTokens_push _ t (goodTokens_push_untyped toks _ h4 hgood) htu⟩
        · have hstep : tokStep buf pos c ⟨some s, false, false, toks⟩ =
              ⟨none, false, false,
                (toks ++ [LexerToken.untyped (extract buf s pos)]) ++ [t]⟩ := by
            simp [tokStep, htf, htq, hcm, hpz]
          rw [hstep]
          exact ⟨rfl, fun _ => rfl, fun s2 hs2 => Option.noConfusion hs2,
            goodTokens_push _ t (goodTokens_push_untyped toks _ h4 hgood) htu⟩
    | none =>
      by_cases hws : is_whitespace c = true
      · cases us with
        | none =>
          have hstep : tokStep buf pos c ⟨none, false, false, toks⟩ =
              ⟨none, false, false, toks⟩ := by
            simp [tokStep, htf, hws]
          rw [hstep]
          exact ⟨rfl, fun _ => rfl, fun s hs => Option.noConfusion hs, h4⟩
        | some s =>
          obtain ⟨hlt, hgood⟩ := h3 s rfl
          have hstep : tokStep buf pos c ⟨some s, false, false, toks⟩ =
              ⟨none, false, false,
                toks ++ [LexerToken.untyped (extract buf s pos)]⟩ := by
            simp [tokStep, htf, hws]
          rw [hstep]
          exact ⟨rfl, fun _ => rfl, fun s2 hs2 => Option.noConfusion hs2,
            goodTokens_push_untyped toks _ h4 hgood⟩
      · have hwsf : is_whitespace c = false := by
          cases hx : is_whitespace c
          · rfl
          · exact absurd hx hws
        have hgc : goodByte c := ⟨hwsf, htf⟩
        cases us with
        | none =>
          have hstep : tokStep buf pos c ⟨none, false, false, toks⟩ =
              ⟨some pos, false, false, toks⟩ := by
            simp [tokStep, htf, hws]
          rw [hstep]
          refine ⟨rfl, fun hh => Bool.noConfusion hh, ?_, h4⟩
          intro s2 hs2
          injection hs2 with hs3
          subst hs3
          refine ⟨Nat.lt_succ_self pos, ?_⟩
          intro x hx
          rw [extract_extend buf pos pos c (Nat.le_refl pos) hget] at hx
          have hnil : extract buf pos pos = [] := by
            unfold extract
            simp
          rw [hnil, List.nil_append] at hx
          exact (List.mem_singleton.mp hx) ▸ hgc
        | some s =>
          have hstep : tokStep buf pos c ⟨some s, false, false, toks⟩ =
              ⟨some s, false, false, toks⟩ := by
            simp [tokStep, htf, hws]
          rw [hstep]
          refine ⟨rfl, fun hh => Bool.noConfusion hh, ?_, h4⟩
          intro s2 hs2
          injection hs2 with hs3
          subst hs3
          obtain ⟨hlt, _⟩ := h3 s rfl
          exact ⟨by omega, hrunext s rfl hgc⟩

/-- The tokenizer pass over a quote-free suffix preserves the
invariant up to its final position. -/
theorem tokenizeFrom_inv (buf : List Nat) (h34buf : 34 ∉ buf) :
    ∀ (rest : List Nat) (pos : Nat) (st : TkState),
    rest = buf.drop pos →
    st.inQuote = false →
    (st.inComment = true → st.untypedStart = none) →
    (∀ s, st.untypedStart = some s →
      s < pos ∧ ∀ x ∈ extract buf s pos, goodByte x) →
    goodTokens st.tokens →
    (∀ s, (tokenizeFrom buf pos rest st).untypedStart = some s →
      s < pos + rest.length ∧
        ∀ x ∈ extract buf s (pos + rest.length), goodByte x) ∧
    goodTokens (tokenizeFrom buf pos rest st).tokens := by
  intro rest
  induction rest with
  | nil =>
    intro pos st _ _ _ h3 h4
    simp only [tokenizeFrom, List.length_nil, Nat.add_zero]
    exact ⟨h3, h4⟩
  | cons c rest2 ih =>
    intro pos st hrest h1 h2 h3 h4
    have hget : buf[pos]? = some c := by
      have hh : (buf.drop pos)[0]? = buf[pos]? := by
        rw [List.getElem?_drop]
        simp
      rw [← hrest] at hh
      simpa using hh.symm
    have hc34 : c ≠ 34 := fun hh => h34buf (hh ▸ mem_of_idx buf pos c hget)
    have hrest2 : rest2 = buf.drop (pos + 1) := by
      have hh := List.tail_drop buf pos
      rw [← hrest] at hh
      simpa using hh
    obtain ⟨g1, g2, g3, g4⟩ :=
      tkInv_step buf pos c st hc34 hget h1 h2 h3 h4
    have hmain := ih (pos + 1) (tokStep buf pos c st) hrest2 g1 g2 g3 g4
    rw [tokenizeFrom]
    have harith : pos + 1 + rest2.length = pos + (c :: rest2).length := by
      simp only [List.length_cons]
      omega
    rw [← harith]
    exact hmain

/-- C4 counterexample: the quoted buffer `"a b"` emits an `Untyped`
token whose bytes include the whitespace byte 32, refuting the
universal no-whitespace claim. -/
theorem c4_counterexample :
    tokenize (bs "\"a b\"") =
      [LexerToken.quote, LexerToken.untyped (bs "a b"), LexerToken.quote] ∧
    (32 ∈ bs "a b") ∧ is_whitespace 32 = true :=
  ⟨rfl, by decide, rfl⟩

/-- C4 (amended): `tokenize` is total by construction, and for every
buffer without a quote byte, every byte of every emitted `Untyped`
token is neither whitespace nor a punctuation byte (in particular the
untyped slices cannot overlap any punctuation token's byte). -/
theorem c4_unquoted_untyped_clean (buf : List Nat) (hq : 34 ∉ buf)
    (b : List Nat) (hb : LexerToken.untyped b ∈ tokenize buf)
    (c : Nat) (hc : c ∈ b) :
    is_whitespace c = false ∧ tryFrom c = none := by
  have hinv := tokenizeFrom_inv buf hq buf 0 ⟨none, false, false, []⟩
    (List.drop_zero buf).symm rfl (fun _ => rfl)
    (fun s hs => Option.noConfusion hs)
    (fun b2 hb2 => absurd hb2 (List.not_mem_nil _))
  obtain ⟨hrun, htoks⟩ := hinv
  unfold tokenize at hb
  cases hfin : (tokenizeFrom buf 0 buf ⟨none, false, false, []⟩).untypedStart with
  | none =>
    simp only [hfin] at hb
    exact htoks b hb c hc
  | some s =>
    simp only [hfin] at hb
    rcases List.mem_append.mp hb with hb1 | hb1
    · exact htoks b hb1 c hc
    · have h2 := List.mem_singleton.mp hb1
      injection h2 with h3
      obtain ⟨_, hgood⟩ := hrun s hfin
      have hlen : (0 : Nat) + buf.length = buf.length := by omega
      rw [hlen] at hgood
      exact hgood c (h3 ▸ hc)

/-- C4 witness: `c4_unquoted_untyped_clean` on the quote-free buffer
`a=b`, whose untyped token `a` contains the byte 97. -/
theorem c4_witness :
    ((34 : Nat) ∉ bs "a=b" ∧
      LexerToken.untyped (bs "a") ∈ tokenize (bs "a=b") ∧ (97 : Nat) ∈ bs "a") ∧
    (is_whitespace 97 = false ∧ tryFrom 97 = none) :=
  ⟨⟨by decide,
    by
      rw [show tokenize (bs "a=b") =
          [LexerToken.untyped (bs "a"), LexerToken.equals,
            LexerToken.untyped (bs "b")] from rfl]
      decide,
    by decide⟩,
    c4_unquoted_untyped_clean (bs "a=b") (by decide) (bs "a")
      (by
        rw [show tokenize (bs "a=b") =
            [LexerToken.untyped (bs "a"), LexerToken.equals,
              LexerToken.untyped (bs "b")] from rfl]
        decide)
      97 (by decide)⟩

/-- C5 witness: `c5_quoted_slice` at the spec's own example content
`a b,c{d` (no leading punctuation, so nothing is dropped), giving the
exact bytes between the delimiters. -/
theorem c5_witness :
    (34 : Nat) ∉ bs "a b,c\x7bd" ∧
    tokenize (34 :: (bs "a b,c\x7bd" ++ [34])) =
      [LexerToken.quote, LexerToken.untyped (bs "a b,c\x7bd"), LexerToken.quote] :=
  ⟨by decide, by
    have h := c5_quoted_slice (bs "a b,c\x7bd") (by decide)
    simpa using h⟩

/-! Claim C10: termination of the parser.  In the embedding the loops
carry fuel; the claim becomes: the parser routines keep the token
list unchanged and advance the cursor (`parse_key` and `parse_value`
advance it by at least one before they can fail, so the recovery
`continue` branches advance too), and a fuel budget linear in the
token count is never exhausted — with enough fuel the parser always
delivers an `ok`, `err`, or out-of-bounds outcome, never `nofuel`.
Out-of-bounds accesses are themselves a terminating outcome
(`panicked`), so no side condition is needed. -/

/-- The cursor-advance contract of a parser outcome: on `Ok` and
`Err` the token list is unchanged and the position advanced by at
least `d`; aborting outcomes carry no state. -/
def advOk {α : Type} (s : PState) (d : Nat) : POut α → Prop
  | .ok _ s1 => s1.tokens = s.tokens ∧ s.position + d ≤ s1.position
  | .err _ s1 => s1.tokens = s.tokens ∧ s.position + d ≤ s1.position
  | .panicked => True
  | .nofuel => True

theorem advOk_mono {α : Type} (r : POut α) (s t : PState) (d1 d2 : Nat)
    (h : advOk t d2 r) (ht : t.tokens = s.tokens)
    (hp : s.position + d1 ≤ t.position + d2) : advOk s d1 r := by
  cases r with
  | ok a s1 =>
    obtain ⟨h1, h2⟩ := h
    exact ⟨h1.trans ht, by omega⟩
  | err e s1 =>
    obtain ⟨h1, h2⟩ := h
    exact ⟨h1.trans ht, by omega⟩
  | panicked => trivial
  | nofuel => trivial

/-- `parse_key` never exhausts fuel (it takes none). -/
theorem parseKey_ne_nofuel (s : PState) : parseKey s ≠ POut.nofuel := by
  unfold parseKey
  split
  · exact fun h => POut.noConfusion h
  · dsimp only
    repeat' split
    all_goals exact fun h => POut.noConfusion h

/-- `parse_key` advances the cursor by at least one, also on
failure, and never touches the token list. -/
theorem parseKey_adv (s : PState) : advOk s 1 (parseKey s) := by
  unfold parseKey
  split
  · trivial
  · dsimp only
    repeat' split
    all_goals simp [advOk]

/-- A successful index forces the index below the length. -/
theorem lt_of_idx {α : Type} (l : List α) (n : Nat) (a : α)
    (h : l[n]? = some a) : n < l.length := by
  by_contra hh
  rw [List.getElem?_eq_none (by omega)] at h
  exact Option.noConfusion h

/-- All four recursive parser routines keep the token list unchanged
and never move the cursor backwards past their entry position
(`parse_value` advances by at least one). -/
theorem parse_adv (fuel : Nat) :
    (∀ s : PState, advOk s 1 (parseValue fuel s)) ∧
    (∀ s : PState, advOk s 0 (parseCollection fuel s)) ∧
    (∀ (dict : List (ClKey × ClVal)) (s : PState),
      advOk s 0 (parseDictLoop fuel dict s)) ∧
    (∀ (acc : List ClVal) (s : PState), advOk s 0 (parseListLoop fuel acc s)) := by
  induction fuel with
  | zero =>
    exact ⟨fun s => trivial, fun s => trivial, fun dict s => trivial,
      fun acc s => trivial⟩
  | succ n ih =>
    obtain ⟨ihV, ihC, ihD, ihL⟩ := ih
    have hV : ∀ s : PState, advOk s 1 (parseValue (n + 1) s) := by
      intro s
      rw [parseValue]
      split
      · trivial
      · dsimp only
        split
        · repeat' split
          all_goals simp [advOk]
        · repeat' split
          all_goals simp [advOk]
        · exact advOk_mono _ s _ 1 0
            (ihC ⟨s.tokens, s.currentIndent + 1, s.position + 1⟩) rfl (by simp)
        · simp [advOk]
    have hD : ∀ (dict : List (ClKey × ClVal)) (s : PState),
        advOk s 0 (parseDictLoop (n + 1) dict s) := by
      intro dict s
      rw [parseDictLoop]
      split
      · split
        · trivial
        · trivial
        · rename_i e s1x heq
          have hk := parseKey_adv s
          rw [heq] at hk
          obtain ⟨hk1, hk2⟩ := hk
          split
          · exact advOk_mono _ s s1x 0 0 (ihD dict s1x) hk1 (by omega)
          · exact ⟨hk1, by omega⟩
        · rename_i key s1x heq
          have hk := parseKey_adv s
          rw [heq] at hk
          obtain ⟨hk1, hk2⟩ := hk
          split
          · trivial
          · rename_i tok heq2
            dsimp only
            have hs2tok :
                (if isEquals tok = true then { s1x with position := s1x.position + 1 }
                  else s1x).tokens = s1x.tokens := by
              split <;> rfl
            have hs2pos : s1x.position ≤
                (if isEquals tok = true then { s1x with position := s1x.position + 1 }
                  else s1x).position := by
              split
              · exact Nat.le_succ _
              · exact Nat.le_refl _
            split
            · trivial
            · trivial
            · rename_i e s3 heq3
              have hv := ihV (if isEquals tok = true
                then { s1x with position := s1x.position + 1 } else s1x)
              rw [heq3] at hv
              obtain ⟨hv1, hv2⟩ := hv
              rw [hs2tok] at hv1
              split
              · exact advOk_mono _ s s3 0 0 (ihD dict s3) (hv1.trans hk1)
                  (by omega)
              · exact ⟨hv1.trans hk1, by omega⟩
            · rename_i value s3 heq3
              have hv := ihV (if isEquals tok = true
                then { s1x with position := s1x.position + 1 } else s1x)
              rw [heq3] at hv
              obtain ⟨hv1, hv2⟩ := hv
              rw [hs2tok] at hv1
              split
              · exact ⟨hv1.trans hk1, by omega⟩
              · split
                · exact ⟨(hv1.trans hk1 : _), by
                    dsimp only
                    omega⟩
                · exact advOk_mono _ s _ 0 0
                    (ihD (insertKV dict key value) { s3 with position := s3.position + 1 })
                    (hv1.trans hk1) (by dsimp only; omega)
                · exact advOk_mono _ s s3 0 0
                    (ihD (insertKV dict key value) s3) (hv1.trans hk1) (by omega)
      · exact ⟨rfl, Nat.le_refl _⟩
    have hL : ∀ (acc : List ClVal) (s : PState),
        advOk s 0 (parseListLoop (n + 1) acc s) := by
      intro acc s
      rw [parseListLoop]
      split
      · split
        · trivial
        · trivial
        · rename_i e s1x heq
          have hv := ihV s
          rw [heq] at hv
          obtain ⟨hv1, hv2⟩ := hv
          split
          · exact advOk_mono _ s s1x 0 0 (ihL acc s1x) hv1 (by omega)
          · exact ⟨hv1, by omega⟩
        · rename_i v s1x heq
          have hv := ihV s
          rw [heq] at hv
          obtain ⟨hv1, hv2⟩ := hv
          dsimp only
          split
          · exact ⟨hv1, by omega⟩
          · split
            · exact ⟨hv1, by dsimp only; omega⟩
            · exact advOk_mono _ s _ 0 0
                (ihL (acc ++ [v]) { s1x with position := s1x.position + 1 })
                hv1 (by dsimp only; omega)
            · exact advOk_mono _ s s1x 0 0 (ihL (acc ++ [v]) s1x) hv1 (by omega)
      · exact ⟨rfl, Nat.le_refl _⟩
    have hC : ∀ s : PState, advOk s 0 (parseCollection (n + 1) s) := by
      intro s
      rw [parseCollection]
      split
      · trivial
      · split
        · exact ⟨rfl, by dsimp only; omega⟩
        · split
          · rename_i v s1x heq
            have hv := ihV s
            rw [heq] at hv
            obtain ⟨hv1, hv2⟩ := hv
            split
            · trivial
            · split
              · exact advOk_mono _ s _ 0 0 (ihD [] { s1x with position := s.position })
                  hv1 (by dsimp only; omega)
              · exact advOk_mono _ s s1x 0 0 (ihL [v] s1x) hv1 (by omega)
          · rename_i e s1x heq
            have hv := ihV s
            rw [heq] at hv
            obtain ⟨hv1, hv2⟩ := hv
            exact ⟨hv1, by omega⟩
          · trivial
          · trivial
    exact ⟨hV, hC, hD, hL⟩

/-- With fuel linear in the number of unread tokens, no parser
routine runs out of fuel: the loops strictly advance the cursor, the
collection rewind re-parses at most one element with the same fuel,
and the recursion depth is bounded by the remaining tokens. -/
theorem fuelSuff : ∀ n : Nat, ∀ s : PState, s.tokens.length - s.position ≤ n →
    (∀ fuel, 2 * n + 2 ≤ fuel → parseValue fuel s ≠ POut.nofuel) ∧
    (∀ fuel, 2 * n + 3 ≤ fuel → parseCollection fuel s ≠ POut.nofuel) ∧
    (∀ fuel dict, 2 * n + 1 ≤ fuel → parseDictLoop fuel dict s ≠ POut.nofuel) ∧
    (∀ fuel acc, 2 * n + 3 ≤ fuel → parseListLoop fuel acc s ≠ POut.nofuel) ∧
    (∀ fuel dict, 2 * n + 1 ≤ fuel → parseLoop fuel dict s ≠ POut.nofuel) := by
  intro n
  induction n using Nat.strong_induction_on with
  | _ n ih =>
    have hVal : ∀ s : PState, s.tokens.length - s.position ≤ n →
        ∀ fuel, 2 * n + 2 ≤ fuel → parseValue fuel s ≠ POut.nofuel := by
      intro s hn fuel hf
      cases fuel with
      | zero => omega
      | succ f =>
        rw [parseValue]
        split
        · exact fun h => POut.noConfusion h
        · rename_i token heq
          have hlt : s.position < s.tokens.length := lt_of_idx _ _ _ heq
          have hn1 : 1 ≤ n := by omega
          dsimp only
          split
          · repeat' split
            all_goals exact fun h => POut.noConfusion h
          · repeat' split
            all_goals exact fun h => POut.noConfusion h
          · exact (ih (n - 1) (by omega)
              ⟨s.tokens, s.currentIndent + 1, s.position + 1⟩
              (by dsimp only; omega)).2.1 f (by omega)
          · exact fun h => POut.noConfusion h
    have hDict : ∀ s : PState, s.tokens.length - s.position ≤ n →
        ∀ fuel dict, 2 * n + 1 ≤ fuel → parseDictLoop fuel dict s ≠ POut.nofuel := by
      intro s hn fuel dict hf
      cases fuel with
      | zero => omega
      | succ f =>
        rw [parseDictLoop]
        split
        · rename_i hlt
          have hn1 : 1 ≤ n := by omega
          split
          · exact fun h => POut.noConfusion h
          · rename_i heq
            exact absurd heq (parseKey_ne_nofuel s)
          · rename_i e s1x heq
            have hk := parseKey_adv s
            rw [heq] at hk
            obtain ⟨hk1, hk2⟩ := hk
            split
            · exact (ih (n - 1) (by omega) s1x
                (by rw [hk1]; omega)).2.2.1 f dict (by omega)
            · exact fun h => POut.noConfusion h
          · rename_i key s1x heq
            have hk := parseKey_adv s
            rw [heq] at hk
            obtain ⟨hk1, hk2⟩ := hk
            have hlen : s1x.tokens.length = s.tokens.length := by rw [hk1]
            split
            · exact fun h => POut.noConfusion h
            · rename_i tok heq2
              dsimp only
              have hs2tok : (if isEquals tok = true
                  then { s1x with position := s1x.position + 1 }
                  else s1x).tokens = s1x.tokens := by
                split <;> rfl
              have hs2pos : s1x.position ≤ (if isEquals tok = true
                  then { s1x with position := s1x.position + 1 }
                  else s1x).position := by
                split
                · exact Nat.le_succ _
                · exact Nat.le_refl _
              have hvne : parseValue f (if isEquals tok = true
                  then { s1x with position := s1x.position + 1 }
                  else s1x) ≠ POut.nofuel := by
                exact (ih (n - 1) (by omega) _
                  (by rw [hs2tok, hlen]; omega)).1 f (by omega)
              split
              · exact fun h => POut.noConfusion h
              · rename_i heq3
                exact absurd heq3 hvne
              · rename_i e s3 heq3
                have hv := (parse_adv f).1 (if isEquals tok = true
                  then { s1x with position := s1x.position + 1 } else s1x)
                rw [heq3] at hv
                obtain ⟨hv1, hv2⟩ := hv
                split
                · exact (ih (n - 1) (by omega) s3
                    (by rw [hv1, hs2tok, hlen]; omega)).2.2.1 f dict (by omega)
                · exact fun h => POut.noConfusion h
              · rename_i value s3 heq3
                have hv := (parse_adv f).1 (if isEquals tok = true
                  then { s1x with position := s1x.position + 1 } else s1x)
                rw [heq3] at hv
                obtain ⟨hv1, hv2⟩ := hv
                split
                · exact fun h => POut.noConfusion h
                · split
                  all_goals
                    first
                      | exact fun h => POut.noConfusion h
                      | exact (ih (n - 1) (by omega)
                          ⟨s3.tokens, s3.currentIndent, s3.position + 1⟩
                          (by dsimp only; rw [hv1, hs2tok, hlen]; omega)).2.2.1
                          f (insertKV dict key value) (by omega)
                      | exact (ih (n - 1) (by omega) s3
                          (by rw [hv1, hs2tok, hlen]; omega)).2.2.1
                          f (insertKV dict key value) (by omega)
        · exact fun h => POut.noConfusion h
    have hList : ∀ s : PState, s.tokens.length - s.position ≤ n →
        ∀ fuel acc, 2 * n + 3 ≤ fuel → parseListLoop fuel acc s ≠ POut.nofuel := by
      intro s hn fuel acc hf
      cases fuel with
      | zero => omega
      | succ f =>
        rw [parseListLoop]
        split
        · rename_i hlt
          have hn1 : 1 ≤ n := by omega
          have hvne : parseValue f s ≠ POut.nofuel := hVal s hn f (by omega)
          split
          · exact fun h => POut.noConfusion h
          · rename_i heq
            exact absurd heq hvne
          · rename_i e s1x heq
            have hv := (parse_adv f).1 s
            rw [heq] at hv
            obtain ⟨hv1, hv2⟩ := hv
            split
            · exact (ih (n - 1) (by omega) s1x
                (by rw [hv1]; omega)).2.2.2.1 f acc (by omega)
            · exact fun h => POut.noConfusion h
          · rename_i v s1x heq
            have hv := (parse_adv f).1 s
            rw [heq] at hv
            obtain ⟨hv1, hv2⟩ := hv
            dsimp only
            split
            · exact fun h => POut.noConfusion h
            · split
              all_goals
                first
                  | exact fun h => POut.noConfusion h
                  | exact (ih (n - 1) (by omega)
                      ⟨s1x.tokens, s1x.currentIndent, s1x.position + 1⟩
                      (by dsimp only; rw [hv1]; omega)).2.2.2.1
                      f (acc ++ [v]) (by omega)
                  | exact (ih (n - 1) (by omega) s1x
                      (by rw [hv1]; omega)).2.2.2.1 f (acc ++ [v]) (by omega)
        · exact fun h => POut.noConfusion h
    have hColl : ∀ s : PState, s.tokens.length - s.position ≤ n →
        ∀ fuel, 2 * n + 3 ≤ fuel → parseCollection fuel s ≠ POut.nofuel := by
      intro s hn fuel hf
      cases fuel with
      | zero => omega
      | succ f =>
        rw [parseCollection]
        split
        · exact fun h => POut.noConfusion h
        · rename_i tok0 heq0
          have hlt : s.position < s.tokens.length := lt_of_idx _ _ _ heq0
          have hn1 : 1 ≤ n := by omega
          have hvne : parseValue f s ≠ POut.nofuel := hVal s hn f (by omega)
          split
          · exact fun h => POut.noConfusion h
          · split
            · rename_i v s1x heq
              have hv := (parse_adv f).1 s
              rw [heq] at hv
              obtain ⟨hv1, hv2⟩ := hv
              split
              · exact fun h => POut.noConfusion h
              · split
                · exact hDict ⟨s1x.tokens, s1x.currentIndent, s.position⟩
                    (by dsimp only; rw [hv1]; omega) f [] (by omega)
                · exact (ih (n - 1) (by omega) s1x
                    (by rw [hv1]; omega)).2.2.2.1 f [v] (by omega)
            · exact fun h => POut.noConfusion h
            · exact fun h => POut.noConfusion h
            · rename_i heq
              exact absurd heq hvne
    have hTop : ∀ s : PState, s.tokens.length - s.position ≤ n →
        ∀ fuel dict, 2 * n + 1 ≤ fuel → parseLoop fuel dict s ≠ POut.nofuel := by
      intro s hn fuel dict hf
      cases fuel with
      | zero => omega
      | succ f =>
        rw [parseLoop]
        split
        · rename_i hlt
          have hn1 : 1 ≤ n := by omega
          split
          · exact fun h => POut.noConfusion h
          · rename_i heq
            exact absurd heq (parseKey_ne_nofuel s)
          · exact fun h => POut.noConfusion h
          · rename_i key s1x heq
            have hk := parseKey_adv s
            rw [heq] at hk
            obtain ⟨hk1, hk2⟩ := hk
            have hlen : s1x.tokens.length = s.tokens.length := by rw [hk1]
            split
            · exact fun h => POut.noConfusion h
            · rename_i tok heq2
              dsimp only
              have hs2tok : (if isEquals tok = true
                  then { s1x with position := s1x.position + 1 }
                  else s1x).tokens = s1x.tokens := by
                split <;> rfl
              have hs2pos : s1x.position ≤ (if isEquals tok = true
                  then { s1x with position := s1x.position + 1 }
                  else s1x).position := by
                split
                · exact Nat.le_succ _
                · exact Nat.le_refl _
              have hvne : parseValue f (if isEquals tok = true
                  then { s1x with position := s1x.position + 1 }
                  else s1x) ≠ POut.nofuel := by
                exact (ih (n - 1) (by omega) _
                  (by rw [hs2tok, hlen]; omega)).1 f (by omega)
              split
              · exact fun h => POut.noConfusion h
              · rename_i heq3
                exact absurd heq3 hvne
              · exact fun h => POut.noConfusion h
              · rename_i value s3 heq3
                have hv := (parse_adv f).1 (if isEquals tok = true
                  then { s1x with position := s1x.position + 1 } else s1x)
                rw [heq3] at hv
                obtain ⟨hv1, hv2⟩ := hv
                exact (ih (n - 1) (by omega) s3
                  (by rw [hv1, hs2tok, hlen]; omega)).2.2.2.2
                  f (insertKV dict key value) (by omega)
        · exact fun h => POut.noConfusion h
    intro s hn
    exact ⟨hVal s hn, hColl s hn, hDict s hn, hList s hn, hTop s hn⟩

/-- C10: parsing terminates.  `parse_key` and `parse_value` advance
the cursor by at least one before they can fail (so the
`InvalidToken` recovery branches advance too) and leave the token
list unchanged, and with a fuel budget of `2·len + 1` the top-level
parse never exhausts its fuel on any token sequence: it always
reaches an `ok`, `err`, or out-of-bounds outcome (out-of-bounds
accesses are themselves a terminating outcome of the embedding). -/
theorem c10_termination :
    (∀ s : PState, advOk s 1 (parseKey s)) ∧
    (∀ (fuel : Nat) (s : PState), advOk s 1 (parseValue fuel s)) ∧
    (∀ (toks : List LexerToken) (fuel : Nat), 2 * toks.length + 1 ≤ fuel →
      parse fuel toks ≠ POut.nofuel) :=
  ⟨parseKey_adv,
   fun fuel => (parse_adv fuel).1,
   fun toks fuel hf =>
     (fuelSuff toks.length ⟨toks, 0, 0⟩ (by simp)).2.2.2.2 fuel [] hf⟩

/-- C10 witness: the termination bound of `c10_termination` at the
token sequence of the buffer `a=1` with fuel 7. -/
theorem c10_witness :
    2 * (tokenize (bs "a=1")).length + 1 ≤ 7 ∧
    parse 7 (tokenize (bs "a=1")) ≠ POut.nofuel :=
  ⟨by decide, c10_termination.2.2 (tokenize (bs "a=1")) 7 (by decide)⟩

end Clausewitz
